import Mathlib

/-!
Verification development for the pacur/httpserver repository.

The Go sources (`src/main.go` and the TLS variant) implement a static HTTP
file server: a directory scanner (`HandleDirList`), a listing formatter
(`Items`, `Items.Less`, fixed-width formatting), a request router
(`StaticHandler.Handle`) and, in the TLS variant, a certificate minter
(`selfCert`) plus the TLS startup sequence in `main`.

This file shallowly embeds those functions:

* Go strings are modelled as Lean `String`s; `len`, slicing and `fmt`
  width padding are modelled on characters (`String.data`), which agrees
  with the Go byte-based operations on ASCII names (all inputs of the
  claims are ASCII; note also that UTF-8 byte order coincides with
  code-point order, so Go's byte-wise `<` on strings is Lean's `String` `<`).
* `filepath.Clean` / `filepath.Join` (`filepath.FromSlash` is the identity
  on Unix) are embedded component-wise over a character-level split on `/`,
  following the lexical algorithm of Go's `path/filepath`.
* Filesystem interaction (`os.Stat`, `ioutil.ReadDir`, `os.Readlink`,
  `os.Lstat`) is modelled by an explicit `Fs` record of oracles; Go errors
  carry no information the code inspects beyond `os.IsNotExist`, so errors
  are `Unit` and `Lstat` has a dedicated three-way result.
* The gin response side effects used by the code (`c.Redirect`, `c.Data`,
  `c.AbortWithError`, header writes, fall-through to the file server) are
  modelled by an explicit `Resp` record threaded through the handlers.
* `crypto` randomness (`ecdsa.GenerateKey`, `rand.Int`) is modelled by
  entropy parameters: `rand.Int(reader, 1 << 128)` returns a uniform value
  below the limit, modelled as `entropy % 2 ^ 128`; fallible crypto/TLS
  steps in `main` are `Except Unit` parameters so that the startup control
  flow can be analysed for every combination of failures.
-/

/-! ### String helpers (Go `len`, slicing, `fmt` padding, time format) -/

/-- Character count of a string (Go `len` on ASCII strings). -/
def strLen (s : String) : Nat := s.data.length

/-- First `n` characters of a string (Go `s[:n]` on ASCII strings). -/
def strTake (s : String) (n : Nat) : String := String.mk (s.data.take n)

/-- Go `strings.HasSuffix`. -/
def goHasSuffix (s suffix : String) : Bool := suffix.data.isSuffixOf s.data

/-- `n` space characters, as used by `fmt` width padding. -/
def spaces (n : Nat) : String := String.mk (List.replicate n ' ')

/-- Go `fmt` `%-Ns`: left-justify into a field of width `w`. -/
def padRight (w : Nat) (s : String) : String := s ++ spaces (w - strLen s)

/-- Go `fmt` `%Ns`: right-justify into a field of width `w`. -/
def padLeft (w : Nat) (s : String) : String := spaces (w - strLen s) ++ s

/-- Two-digit zero padding (Go time layout `02`, `15`, `04`). -/
def pad2 (n : Nat) : String := if n < 10 then "0" ++ toString n else toString n

/-- Four-digit zero padding (Go time layout `2006`). -/
def pad4 (n : Nat) : String :=
  if n < 10 then "000" ++ toString n
  else if n < 100 then "00" ++ toString n
  else if n < 1000 then "0" ++ toString n
  else toString n

/-- Go time layout `Jan` (month name abbreviation). -/
def monthName : Nat → String
  | 1 => "Jan" | 2 => "Feb" | 3 => "Mar" | 4 => "Apr" | 5 => "May" | 6 => "Jun"
  | 7 => "Jul" | 8 => "Aug" | 9 => "Sep" | 10 => "Oct" | 11 => "Nov" | 12 => "Dec"
  | _ => "---"

/-- A modification timestamp, broken into the fields the Go layout uses. -/
structure Tm where
  year : Nat
  month : Nat
  day : Nat
  hour : Nat
  minute : Nat
deriving DecidableEq, Repr

/-- `item.ModTime().Format("02-Jan-2006 15:04")`. -/
def fmtTm (t : Tm) : String :=
  pad2 t.day ++ "-" ++ monthName t.month ++ "-" ++ pad4 t.year ++ " " ++
    pad2 t.hour ++ ":" ++ pad2 t.minute

/-! ### Go `path/filepath` lexical path processing (Unix rules)

`filepath.Clean` processes the path as a sequence of `/`-separated
components: empty and `.` components are dropped, `..` pops the previous
component (and is dropped at the root of an absolute path, or kept at the
front of a relative one).  `filepath.Join` joins its non-empty arguments
with `/` and Cleans the result.  `filepath.FromSlash` is the identity on
Unix and is omitted. -/

/-- Split a character list at every `/` (matching Go `strings.Split` on `/`:
the empty list yields one empty component). -/
def splitSlashCh : List Char → List (List Char)
  | [] => [[]]
  | c :: rest =>
    if c = '/' then [] :: splitSlashCh rest
    else
      match splitSlashCh rest with
      | [] => [[c]]
      | t :: ts => (c :: t) :: ts

/-- Split a path string into its `/`-separated components. -/
def splitSlash (s : String) : List String := (splitSlashCh s.data).map String.mk

/-- Join components with `/` (inverse of `splitSlash` on separator-free
nonempty components). -/
def intercalateSlash : List String → String
  | [] => ""
  | [p] => p
  | p :: rest => p ++ "/" ++ intercalateSlash rest

/-- The component-processing loop of `filepath.Clean`.  `acc` holds the
output components in reverse order; `abs` records whether the path is
rooted. -/
def cleanAccum (abs : Bool) : List String → List String → List String
  | acc, [] => acc
  | acc, p :: rest =>
    if p = "" ∨ p = "." then cleanAccum abs acc rest
    else if p = ".." then
      match acc with
      | q :: acc' =>
        if q = ".." then cleanAccum abs (p :: q :: acc') rest
        else cleanAccum abs acc' rest
      | [] => if abs then cleanAccum abs [] rest else cleanAccum abs [p] rest
    else cleanAccum abs (p :: acc) rest

/-- Cleaned components of a path, in order. -/
def cleanParts (abs : Bool) (parts : List String) : List String :=
  (cleanAccum abs [] parts).reverse

/-- Whether the path is rooted (`os.IsPathSeparator(path[0])`). -/
def isAbsPath (s : String) : Bool :=
  match s.data with
  | c :: _ => c = '/'
  | [] => false

/-- Go `filepath.Clean` for Unix paths. -/
def cleanPath (s : String) : String :=
  if s = "" then "."
  else
    let abs := isAbsPath s
    let parts := cleanParts abs (splitSlash s)
    if abs then "/" ++ intercalateSlash parts
    else if parts = [] then "." else intercalateSlash parts

/-- Go `filepath.Join` on two elements: join the non-empty elements with
`/` and Clean the result. -/
def joinPaths (a b : String) : String :=
  if a ≠ "" then cleanPath (a ++ "/" ++ b)
  else if b ≠ "" then cleanPath b
  else ""

/-- The resolved filesystem path computed by `StaticHandler.Handle`:
`filepath.Join(h.Root, filepath.FromSlash(filepath.Clean("/"+c.Param("filepath"))))`
(`FromSlash` is the identity on Unix; the route `/*filepath` makes the
parameter equal to the request URL path). -/
def resolvedPath (root urlPath : String) : String :=
  joinPaths root (cleanPath ("/" ++ urlPath))

/-! ### Filesystem model

`ioutil.ReadDir` returns the (lstat-style) `FileInfo` of each child, sorted
by filename; `os.Readlink` reads a link's target; `os.Lstat` stats a path
without following it.  Go errors are only inspected through
`os.IsNotExist`, so `Lstat`/`Stat` results are a three-way sum and other
errors carry no data. -/

/-- The fields of a Go `os.FileInfo` used by the server.  `isSymlink`
models `Mode()&os.ModeSymlink != 0`. -/
structure FileInfo where
  name : String
  size : Int
  modTime : Tm
  isDir : Bool
  isSymlink : Bool
deriving DecidableEq, Repr

/-- Result of `os.Stat` / `os.Lstat`: success, `os.IsNotExist`-error, or
any other error. -/
inductive StatRes where
  | found (fi : FileInfo)
  | notExist
  | ioErr
deriving DecidableEq, Repr

/-- Oracle for the filesystem calls the server makes. -/
structure Fs where
  stat : String → StatRes
  readDir : String → Except Unit (List FileInfo)
  readlink : String → Except Unit String
  lstat : String → StatRes

/-- `IsDirectory` (main.go lines 23-34): `os.Stat`, with `os.IsNotExist`
mapped to `(false, nil)` and other errors propagated. -/
def isDirectory (fs : Fs) (path : String) : Except Unit Bool :=
  match fs.stat path with
  | .found fi => .ok fi.isDir
  | .notExist => .ok false
  | .ioErr => .error ()

/-! ### Listing items, ordering and rendering -/

/-- `Item` (main.go lines 36-40). -/
structure Item where
  Name : String
  IsDir : Bool
  Formatted : String
deriving DecidableEq, Repr

/-- `Items.Less` (main.go lines 51-68).  `Name[:1] == "."` is the hidden
test (Go would panic on an empty name; directory entry names are never
empty, and `strTake` returns `""` there). -/
def goLess (a b : Item) : Bool :=
  let iDir := a.IsDir
  let jDir := b.IsDir
  let iHidden := strTake a.Name 1 == "."
  let jHidden := strTake b.Name 1 == "."
  if iDir && !jDir then true
  else if !iDir && jDir then false
  else if iHidden && !jHidden then true
  else if !iHidden && jHidden then false
  else decide (a.Name < b.Name)

/-- `Items.Sort` calls `sort.Sort`, an arbitrary comparison sort over
`Less`; it is modelled as insertion sort.  On inputs with pairwise
distinct names `Less` is a strict total order, so every comparison sort
produces the same output. -/
def insertItem (x : Item) : List Item → List Item
  | [] => [x]
  | y :: ys => if goLess x y then x :: y :: ys else y :: insertItem x ys

/-- See `insertItem`. -/
def sortItems : List Item → List Item
  | [] => []
  | x :: xs => insertItem x (sortItems xs)

/-- `Items.Join` (main.go lines 82-90): concatenate the precomputed
`Formatted` fields, separated by `sep`. -/
def joinItems (items : List Item) (sep : String) : String :=
  match items with
  | [] => ""
  | x :: xs => xs.foldl (fun acc i => acc ++ sep ++ i.Formatted) x.Formatted

/-- The display name inside the anchor (main.go lines 186-189): names
longer than 50 are cut to 47 characters plus `..>`. -/
def formatName (name : String) : String :=
  if strLen name > 50 then strTake name 47 ++ "..>" else name

/-- Size column (main.go lines 178-184): `-` for directories, decimal byte
count otherwise. -/
def sizeStr (info : FileInfo) : String :=
  if info.isDir then "-" else toString info.size

/-- One listing item as built at main.go lines 178-197: `name0` is the
directory entry's own name, `modTime` the already-formatted timestamp
(computed at line 158, before symlink resolution), and `info` the
`FileInfo` the metadata is drawn from (the lstat of the readlink target
for symlinks, the entry itself otherwise). -/
def mkItem (name0 modTime : String) (info : FileInfo) : Item :=
  let name := if info.isDir then name0 ++ "/" else name0
  { Name := name
    IsDir := info.isDir
    Formatted := "<a href=\"" ++ name ++ "\">" ++
      padRight 54 (formatName name ++ "</a>") ++ " " ++ modTime ++ " " ++
      padLeft 19 (sizeStr info) }

/-- Outcome of the scan loop of `HandleDirList` (main.go lines 152-198). -/
inductive ScanOut where
  | indexHtml
  | scanErr
  | done (items : List Item)
deriving DecidableEq, Repr

/-- The scan loop of `HandleDirList` (main.go lines 152-198): stop at an
entry named `index.html`; format the modification time of the entry
itself; for a symlink, `Readlink` then `Lstat` the target, skipping the
entry when the target does not exist and aborting on any other error,
and substitute the target's `FileInfo` for the entry's. -/
def scanLoop (path : String) (fs : Fs) : List FileInfo → List Item → ScanOut
  | [], items => .done items
  | e :: rest, items =>
    if e.name = "index.html" then .indexHtml
    else
      let modTime := fmtTm e.modTime
      if e.isSymlink then
        match fs.readlink (joinPaths path e.name) with
        | .error _ => .scanErr
        | .ok linkPath =>
          match fs.lstat linkPath with
          | .notExist => scanLoop path fs rest items
          | .ioErr => .scanErr
          | .found itm => scanLoop path fs rest (items ++ [mkItem e.name modTime itm])
      else scanLoop path fs rest (items ++ [mkItem e.name modTime e])

/-- The page template `body` (main.go lines 15-21) instantiated with the
cleaned slash-terminated request path (twice) and the joined lines. -/
def renderBody (pathFrm listing : String) : String :=
  "<html>\n<head><title>Index of " ++ pathFrm ++ "</title></head>\n" ++
  "<body bgcolor=\"white\">\n<h1>Index of " ++ pathFrm ++
  "</h1><hr><pre><a href=\"../\">../</a>\n" ++ listing ++
  "</pre><hr></body>\n</html>\n"

/-! ### Response model and handlers -/

/-- The response effects the handlers perform on the gin context:
headers added, a `c.Redirect(301, …)` call, a `c.Data(200, "text/html", …)`
call, a `c.AbortWithError(500, …)` call, and whether the request fell
through to `h.fileServer.ServeHTTP`. -/
structure Resp where
  headers : List (String × String) := []
  redirect : Option (Nat × String) := none
  data : Option (Nat × String × String) := none
  abortCode : Option Nat := none
  servedRaw : Bool := false
deriving DecidableEq, Repr

/-- The three no-cache headers added when caching is disabled
(main.go lines 100-105). -/
def cacheHeaders : List (String × String) :=
  [("Cache-Control", "no-cache, no-store, must-revalidate"),
   ("Pragma", "no-cache"),
   ("Expires", "0")]

/-- `StaticHandler` configuration (main.go lines 92-97). -/
structure HandlerCfg where
  root : String
  cache : Bool
  contentType : String

/-- The redirect step of `HandleDirList` (main.go lines 141-143):
`c.Redirect(301, c.Request.URL.Path+"/")` when the URL path lacks a
trailing slash. -/
def redirectIfNeeded (urlPath : String) (resp : Resp) : Resp :=
  if !goHasSuffix urlPath "/" then
    { resp with redirect := some (301, urlPath ++ "/") }
  else resp

/-- `HandleDirList` (main.go lines 133-207).  For the route `/*filepath`,
`c.Param("filepath")` equals `c.Request.URL.Path`, so a single `urlPath`
argument models both.  Returns `(ok, err, response)`. -/
def handleDirList (path urlPath : String) (fs : Fs) (resp : Resp) :
    Bool × Option Unit × Resp :=
  let pathFrm :=
    let q := cleanPath ("/" ++ urlPath)
    if goHasSuffix q "/" then q else q ++ "/"
  let resp := redirectIfNeeded urlPath resp
  match fs.readDir path with
  | .error e => (false, some e, resp)
  | .ok itemsAll =>
    match scanLoop path fs itemsAll [] with
    | .indexHtml => (false, none, resp)
    | .scanErr => (false, some (), resp)
    | .done items =>
      let sorted := sortItems items
      (true, none,
        { resp with
          data := some (200, "text/html",
            renderBody pathFrm (joinItems sorted "\n")) })

/-- The fall-through to raw file serving (main.go lines 125-130):
optionally force the content type, then delegate to the file server. -/
def serveRawFile (cfg : HandlerCfg) (resp : Resp) : Resp :=
  let resp :=
    if cfg.contentType ≠ "" then
      { resp with headers := resp.headers ++ [("Content-Type", cfg.contentType)] }
    else resp
  { resp with servedRaw := true }

/-- `StaticHandler.Handle` (main.go lines 99-131). -/
def handle (cfg : HandlerCfg) (fs : Fs) (urlPath : String) : Resp :=
  let resp : Resp := { headers := if !cfg.cache then cacheHeaders else [] }
  let path := resolvedPath cfg.root urlPath
  match isDirectory fs path with
  | .error _ => { resp with abortCode := some 500 }
  | .ok isDir =>
    if isDir then
      match handleDirList path urlPath fs resp with
      | (_, some _, r) => { r with abortCode := some 500 }
      | (true, none, r) => r
      | (false, none, r) => serveRawFile cfg r
    else serveRawFile cfg resp

/-! ### Certificate minter and TLS startup (src/unnamed variant)

`selfCert` (lines 229-278 of the TLS variant) generates a P-384 ECDSA key,
draws a serial below `1 << 128`, fills in a fixed certificate template,
self-signs when no parent is given and otherwise signs with the parent's
key, and parses the produced DER.  Randomness is modelled by entropy
parameters; each fallible library call is an `Except Unit` parameter so
the error paths of `main` can be traversed. -/

/-- Elliptic curves used by the program. -/
inductive Curve where
  | p384
deriving DecidableEq, Repr

/-- An ECDSA key, reduced to the fields the claims inspect: its curve and
the entropy it was generated from. -/
structure EcdsaKey where
  curve : Curve
  seed : Nat
deriving DecidableEq, Repr

/-- `ecdsa.GenerateKey(elliptic.P384(), rand.Reader)`. -/
def generateKeyP384 (entropy : Nat) : EcdsaKey := ⟨Curve.p384, entropy⟩

/-- `serialLimit = new(big.Int).Lsh(big.NewInt(1), 128)`. -/
def serialLimit : Nat := 2 ^ 128

/-- `rand.Int(rand.Reader, serialLimit)`: a uniformly random integer in
`[0, serialLimit)`, modelled as the entropy reduced below the limit. -/
def randSerial (entropy : Nat) : Nat := entropy % serialLimit

/-- Go `x509.KeyUsageDigitalSignature`. -/
def KeyUsageDigitalSignature : Nat := 1

/-- Go `x509.KeyUsageKeyEncipherment`. -/
def KeyUsageKeyEncipherment : Nat := 4

/-- Extended key usages used by the program. -/
inductive ExtKeyUsage where
  | serverAuth
deriving DecidableEq, Repr

/-- Signature algorithms used by the program. -/
inductive SigAlg where
  | ecdsaWithSHA256
deriving DecidableEq, Repr

/-- Go `time.Hour` in nanoseconds, the unit of Go `time.Duration`
arithmetic (`-24 * time.Hour`, `26280 * time.Hour`). -/
def hourNs : Int := 3600 * 1000000000

/-- The `x509.Certificate` template fields set by `selfCert`
(lines 247-259). -/
structure CertTemplate where
  serialNumber : Nat
  organization : String
  notBefore : Int
  notAfter : Int
  keyUsage : Nat
  extKeyUsage : List ExtKeyUsage
  basicConstraintsValid : Bool
  signatureAlgorithm : SigAlg
deriving DecidableEq, Repr

/-- A signed certificate as produced by `x509.CreateCertificate` +
`x509.ParseCertificate`: the template, the issuer template it was signed
under, the signing key and the subject's key. -/
structure Certificate where
  template : CertTemplate
  issuer : CertTemplate
  signerKey : EcdsaKey
  subjectKey : EcdsaKey
deriving DecidableEq, Repr

/-- `selfCert` (TLS variant lines 229-278).  `parent = none` models the
`parent == nil` self-signing branch.  `keyRes`/`serialRes` are the results
of `ecdsa.GenerateKey` and `rand.Int` (entropy on success),
`createRes`/`parseRes` those of `x509.CreateCertificate` and
`x509.ParseCertificate`.  The two `time.Now()` calls of the template are
modelled by one `now` (nanoseconds). -/
def selfCert (parent : Option (CertTemplate × EcdsaKey)) (now : Int)
    (keyRes serialRes : Except Unit Nat) (createRes parseRes : Except Unit Unit) :
    Except Unit (Certificate × EcdsaKey) := do
  let kEntropy ← keyRes
  let certKey := generateKeyP384 kEntropy
  let sEntropy ← serialRes
  let serial := randSerial sEntropy
  let certTempl : CertTemplate :=
    { serialNumber := serial
      organization := "Pacur HTTP Server"
      notBefore := now - 24 * hourNs
      notAfter := now + 26280 * hourNs
      keyUsage := KeyUsageKeyEncipherment ||| KeyUsageDigitalSignature
      extKeyUsage := [.serverAuth]
      basicConstraintsValid := true
      signatureAlgorithm := .ecdsaWithSHA256 }
  let (parentTempl, parentKey) := parent.getD (certTempl, certKey)
  let _ ← createRes
  let _ ← parseRes
  pure ({ template := certTempl
          issuer := parentTempl
          signerKey := parentKey
          subjectKey := certKey }, certKey)

/-- Results of the fallible steps of the TLS branch of `main`
(TLS variant lines 332-377), in program order. -/
structure TlsEnv where
  caKeyGen : Except Unit Nat
  caSerialGen : Except Unit Nat
  caCreate : Except Unit Unit
  caParse : Except Unit Unit
  leafKeyGen : Except Unit Nat
  leafSerialGen : Except Unit Nat
  leafCreate : Except Unit Unit
  leafParse : Except Unit Unit
  marshalKey : Except Unit Unit
  keyPairLoad : Except Unit Unit
  listen : Except Unit Unit

/-- How the TLS branch of `main` ends before any request is handled:
`panicked` (a `panic(err)` call), `returnedEarly` (the bare `return` after
a `tls.X509KeyPair` failure), or `served` (`server.Serve(listener)` was
reached). -/
inductive BootOutcome where
  | panicked
  | returnedEarly
  | served
deriving DecidableEq, Repr

/-- The TLS branch of `main` (TLS variant lines 332-379): mint the CA,
mint the leaf signed by it, marshal the leaf key, PEM-encode
(`pem.EncodeToMemory` cannot fail), load the key pair, create the TLS
listener, and serve.  Every failure is a `panic` except the key-pair load,
which is a bare `return`. -/
def tlsBranch (env : TlsEnv) (now : Int) : BootOutcome :=
  match selfCert none now env.caKeyGen env.caSerialGen env.caCreate env.caParse with
  | .error _ => .panicked
  | .ok (caCert, caKey) =>
    match selfCert (some (caCert.template, caKey)) now
        env.leafKeyGen env.leafSerialGen env.leafCreate env.leafParse with
    | .error _ => .panicked
    | .ok (_, _) =>
      match env.marshalKey with
      | .error _ => .panicked
      | .ok _ =>
        match env.keyPairLoad with
        | .error _ => .returnedEarly
        | .ok _ =>
          match env.listen with
          | .error _ => .panicked
          | .ok _ => .served

/-- The certificate chain minted at startup when every crypto step
succeeds: CA (self-signed), then leaf signed by the CA. -/
def mintChain (now : Int) (e1 e2 e3 e4 : Nat) : Except Unit (Certificate × Certificate) := do
  let (caCert, caKey) ← selfCert none now (.ok e1) (.ok e2) (.ok ()) (.ok ())
  let (leafCert, _) ← selfCert (some (caCert.template, caKey)) now
    (.ok e3) (.ok e4) (.ok ()) (.ok ())
  pure (caCert, leafCert)

/-! ### Concrete fixtures used by witnesses, counterexamples and the
end-to-end example -/

/-- A fixed timestamp. -/
def tm0 : Tm := ⟨2024, 1, 2, 3, 4⟩

/-- Timestamp of the symlink `a` in the chain fixture. -/
def tm1 : Tm := ⟨2021, 5, 6, 7, 8⟩

/-- Timestamp of the intermediate symlink `b` in the chain fixture. -/
def tm2 : Tm := ⟨2022, 6, 7, 8, 9⟩

/-- Timestamp of the final target `c` in the chain fixture. -/
def tm3 : Tm := ⟨2023, 7, 8, 9, 10⟩

/-- A regular file `b.txt` of 10 bytes. -/
def fi_btxt : FileInfo := ⟨"b.txt", 10, tm0, false, false⟩

/-- A hidden regular file `.hidden`. -/
def fi_hidden : FileInfo := ⟨".hidden", 5, tm0, false, false⟩

/-- A subdirectory `sub`. -/
def fi_sub : FileInfo := ⟨"sub", 4096, tm0, true, false⟩

/-- Root `/w` containing `.hidden`, `b.txt` and `sub` (the end-to-end
example of the spec). -/
def fsEx : Fs :=
  { stat := fun p => if p = "/w" then .found ⟨"w", 4096, tm0, true, false⟩ else .notExist
    readDir := fun p => if p = "/w" then .ok [fi_hidden, fi_btxt, fi_sub] else .error ()
    readlink := fun _ => .error ()
    lstat := fun _ => .notExist }

/-- A symbolic link `a` (its own lstat info, as `ioutil.ReadDir` reports
it), first element of the chain `a → b → c`. -/
def fi_a : FileInfo := ⟨"a", 99, tm1, false, true⟩

/-- The intermediate symlink `b` of the chain (lstat info: itself a
symlink). -/
def fi_b : FileInfo := ⟨"b", 1, tm2, false, true⟩

/-- The final regular file `c` of the chain, 10 bytes. -/
def fi_c : FileInfo := ⟨"c", 10, tm3, false, false⟩

/-- Root `/r` containing only the symlink `a`, whose readlink target is
`b`; `b` is itself a symlink whose target is `c`. -/
def fsC1 : Fs :=
  { stat := fun p => if p = "/r" then .found ⟨"r", 4096, tm1, true, false⟩ else .notExist
    readDir := fun p => if p = "/r" then .ok [fi_a] else .error ()
    readlink := fun p =>
      if p = "/r/a" then .ok "b" else if p = "b" then .ok "c" else .error ()
    lstat := fun p =>
      if p = "b" then .found fi_b else if p = "c" then .found fi_c else .notExist }

/-- A symbolic link `ln` pointing at the regular file `t`. -/
def fi_ln : FileInfo := ⟨"ln", 7, tm1, false, true⟩

/-- The regular file `t`, target of `ln`. -/
def fi_t : FileInfo := ⟨"t", 10, tm2, false, false⟩

/-- Root `/r2` containing only the symlink `ln` with existing target `t`. -/
def fsC2 : Fs :=
  { stat := fun p => if p = "/r2" then .found ⟨"r2", 4096, tm1, true, false⟩ else .notExist
    readDir := fun p => if p = "/r2" then .ok [fi_ln] else .error ()
    readlink := fun p => if p = "/r2/ln" then .ok "t" else .error ()
    lstat := fun p => if p = "t" then .found fi_t else .notExist }

/-- A symlink `aaa` whose `Readlink` fails. -/
def fi_bad : FileInfo := ⟨"aaa", 0, tm1, false, true⟩

/-- The index file `index.html`. -/
def fi_idx : FileInfo := ⟨"index.html", 3, tm0, false, false⟩

/-- Root `/r5` whose listing contains a broken-readlink symlink `aaa`
sorted before `index.html`. -/
def fsC5 : Fs :=
  { stat := fun p => if p = "/r5" then .found ⟨"r5", 4096, tm0, true, false⟩ else .notExist
    readDir := fun p => if p = "/r5" then .ok [fi_bad, fi_idx] else .error ()
    readlink := fun _ => .error ()
    lstat := fun _ => .notExist }

/-- Root `/r5` whose listing contains a well-behaved `b.txt` before
`index.html`. -/
def fsC5b : Fs :=
  { stat := fun p => if p = "/r5" then .found ⟨"r5", 4096, tm0, true, false⟩ else .notExist
    readDir := fun p => if p = "/r5" then .ok [fi_btxt, fi_idx] else .error ()
    readlink := fun _ => .error ()
    lstat := fun _ => .notExist }

/-- Root `/w` with subdirectory `d` containing the single file `b.txt`
(used for the trailing-slash redirect witness). -/
def fsC4 : Fs :=
  { stat := fun p => if p = "/w/d" then .found ⟨"d", 4096, tm0, true, false⟩ else .notExist
    readDir := fun p => if p = "/w/d" then .ok [fi_btxt] else .error ()
    readlink := fun _ => .error ()
    lstat := fun _ => .notExist }

/-- The certificate attributes asserted by the spec for every minted
certificate: serial below `2 ^ 128`, validity window `[now - 24h, now + 26280h]`,
key encipherment + digital signature usage with server-auth extended
usage, ECDSA-SHA256 signature algorithm, and a P-384 subject key. -/
def certAttrsOk (now : Int) (c : Certificate) : Prop :=
  c.template.serialNumber < serialLimit ∧
  c.template.notBefore = now - 24 * hourNs ∧
  c.template.notAfter = now + 26280 * hourNs ∧
  c.template.keyUsage = (KeyUsageKeyEncipherment ||| KeyUsageDigitalSignature) ∧
  c.template.extKeyUsage = [ExtKeyUsage.serverAuth] ∧
  c.template.basicConstraintsValid = true ∧
  c.template.signatureAlgorithm = SigAlg.ecdsaWithSHA256 ∧
  c.subjectKey.curve = Curve.p384

/-- Success of every fallible step of the TLS bootstrap. -/
def tlsAllOk (env : TlsEnv) : Prop :=
  (∃ n, env.caKeyGen = .ok n) ∧ (∃ n, env.caSerialGen = .ok n) ∧
  env.caCreate = .ok () ∧ env.caParse = .ok () ∧
  (∃ n, env.leafKeyGen = .ok n) ∧ (∃ n, env.leafSerialGen = .ok n) ∧
  env.leafCreate = .ok () ∧ env.leafParse = .ok () ∧
  env.marshalKey = .ok () ∧ env.keyPairLoad = .ok () ∧ env.listen = .ok ()

/-- Spec-side rendering of precomputed fragments: the `sep`-separated
concatenation of a list of already-rendered strings (what "derived once
and never recomputed" requires of `Items.Join`). -/
def specFragmentsJoin (frags : List String) (sep : String) : String :=
  match frags with
  | [] => ""
  | f :: fs => fs.foldl (fun acc g => acc ++ sep ++ g) f

/-- A directory entry whose symlink resolution does not abort the scan:
either it is no symlink, or its readlink succeeds and the lstat of the
target is not a non-not-exist error. -/
def okResolve (fs : Fs) (path : String) (e : FileInfo) : Prop :=
  e.isSymlink = true →
    ∃ t, fs.readlink (joinPaths path e.name) = .ok t ∧ fs.lstat t ≠ .ioErr

/-- The hidden test of `Items.Less`: `Name[:1] == "."`. -/
def itemHidden (a : Item) : Bool := strTake a.Name 1 == "."

/-- Rank of an item under the first two tie-breaks: directories before
files, hidden before non-hidden. -/
def itemRank (a : Item) : Nat :=
  (if a.IsDir then 0 else 2) + (if itemHidden a then 0 else 1)

/-- The ordering relation stated by the spec: directories precede files;
among equal directory-ness, hidden entries precede non-hidden; remaining
ties by case-sensitive name comparison. -/
def claimOrder (a b : Item) : Prop :=
  (a.IsDir = true ∧ b.IsDir = false) ∨
  (a.IsDir = b.IsDir ∧
    ((itemHidden a = true ∧ itemHidden b = false) ∨
      (itemHidden a = itemHidden b ∧ a.Name < b.Name)))

/-- Pairwise distinct entry names. -/
def distinctNames (items : List Item) : Prop :=
  items.Pairwise (fun a b => a.Name ≠ b.Name)

/-! ### Claim theorems -/


/-- C8: every minted certificate (CA and leaf) carries a serial number
drawn from `[0, 2^128)` (`rand.Int` below `serialLimit`, modelled on
arbitrary entropy), validity `notBefore = now − 24h`, `notAfter = now +
26280h`, key usages key-encipherment and digital-signature with
server-authentication extended usage, ECDSA-SHA256 signature algorithm,
and a P-384 key. -/
theorem mintChain_certificate_attributes (now : Int) (e1 e2 e3 e4 : Nat) :
    ∃ ca leaf, mintChain now e1 e2 e3 e4 = .ok (ca, leaf) ∧
      certAttrsOk now ca ∧ certAttrsOk now leaf := by
  refine ⟨_, _, rfl, ?_, ?_⟩ <;>
    refine ⟨Nat.mod_lt _ (by norm_num [serialLimit]), rfl, rfl, rfl, rfl, rfl, rfl, rfl⟩


/-- C9: when TLS is requested, serving is reached only if every step of
the certificate bootstrap succeeded — equivalently, any failure (CA key
generation, CA/leaf serial draw, signing, parsing, leaf key generation,
key marshalling, key-pair loading, listener creation) terminates the
process (`panic` or the bare `return` after `tls.X509KeyPair`) without
serving any request. -/
theorem tls_bootstrap_failure_is_fatal (env : TlsEnv) (now : Int)
    (h : tlsBranch env now = .served) : tlsAllOk env := by
  unfold tlsBranch at h
  unfold selfCert at h
  rcases hk : env.caKeyGen with e | k <;> rw [hk] at h
  · simp [Bind.bind, Except.bind, Functor.map, Except.map, Pure.pure, Except.pure] at h
  rcases hs : env.caSerialGen with e | s <;> rw [hs] at h
  · simp [Bind.bind, Except.bind, Functor.map, Except.map, Pure.pure, Except.pure] at h
  rcases hc : env.caCreate with e | c <;> rw [hc] at h
  · simp [Bind.bind, Except.bind, Functor.map, Except.map, Pure.pure, Except.pure] at h
  rcases hp : env.caParse with e | p <;> rw [hp] at h
  · simp [Bind.bind, Except.bind, Functor.map, Except.map, Pure.pure, Except.pure] at h
  rcases hk2 : env.leafKeyGen with e | k2 <;> rw [hk2] at h
  · simp [Bind.bind, Except.bind, Functor.map, Except.map, Pure.pure, Except.pure] at h
  rcases hs2 : env.leafSerialGen with e | s2 <;> rw [hs2] at h
  · simp [Bind.bind, Except.bind, Functor.map, Except.map, Pure.pure, Except.pure] at h
  rcases hc2 : env.leafCreate with e | c2 <;> rw [hc2] at h
  · simp [Bind.bind, Except.bind, Functor.map, Except.map, Pure.pure, Except.pure] at h
  rcases hp2 : env.leafParse with e | p2 <;> rw [hp2] at h
  · simp [Bind.bind, Except.bind, Functor.map, Except.map, Pure.pure, Except.pure] at h
  rcases hm : env.marshalKey with e | m <;> rw [hm] at h
  · simp [Bind.bind, Except.bind, Functor.map, Except.map, Pure.pure, Except.pure] at h
  rcases hkp : env.keyPairLoad with e | kp <;> rw [hkp] at h
  · simp [Bind.bind, Except.bind, Functor.map, Except.map, Pure.pure, Except.pure] at h
  rcases hl : env.listen with e | l <;> rw [hl] at h
  · simp [Bind.bind, Except.bind, Functor.map, Except.map, Pure.pure, Except.pure] at h
  exact ⟨⟨k, hk⟩, ⟨s, hs⟩, hc, hp, ⟨k2, hk2⟩, ⟨s2, hs2⟩, hc2, hp2, hm, hkp, hl⟩

/-- Witness for C9: an all-successful environment reaches serving, and the
theorem applied to it recovers success of every step. -/
theorem tls_bootstrap_failure_is_fatal_witness :
    tlsAllOk ⟨.ok 1, .ok 2, .ok (), .ok (), .ok 3, .ok 4, .ok (), .ok (),
      .ok (), .ok (), .ok ()⟩ :=
  tls_bootstrap_failure_is_fatal _ 0 rfl

/-- The display text of a long name has exactly 50 characters: the first
47 of the name plus the marker `..>`. -/
theorem formatName_length_of_gt (name : String) (h : strLen name > 50) :
    strLen (formatName name) = 50 := by
  have : formatName name = strTake name 47 ++ "..>" := by
    simp [formatName, h]
  rw [this]
  cases name with
  | mk data =>
    simp only [strLen, strTake] at *
    show ((String.mk (data.take 47) ++ String.mk ['.', '.', '>']).data).length = 50
    have happ : (String.mk (data.take 47) ++ String.mk ['.', '.', '>']).data
        = data.take 47 ++ ['.', '.', '>'] := rfl
    rw [happ]
    simp [List.length_take]
    omega

/-- C7: a listed name longer than 50 characters displays as exactly its
first 47 characters followed by the three-character marker `..>`; a name
of at most 50 characters displays unmodified.  (`formatName` is the
display-name computation of `HandleDirList`, applied inside `mkItem` to
the entry name after any `/` suffix; Go measures bytes, which equals the
character count on ASCII names.) -/
theorem display_name_truncation (name : String) :
    (strLen name > 50 →
      (formatName name).data = name.data.take 47 ++ ['.', '.', '>'] ∧
      (name.data.take 47).length = 47) ∧
    (strLen name ≤ 50 → formatName name = name) := by
  constructor
  · intro h
    constructor
    · have : formatName name = strTake name 47 ++ "..>" := by simp [formatName, h]
      rw [this]
      rfl
    · have h' : name.data.length > 50 := h
      rw [List.length_take]
      omega
  · intro h
    have h' : ¬ strLen name > 50 := by omega
    unfold formatName
    rw [if_neg h']

/-- Witness for C7: a 51-character name is cut to its first 47 characters
plus `..>`; the 5-character name `b.txt` is unmodified. -/
theorem display_name_truncation_witness :
    (formatName "aaaaaaaaaaaaaaaaaaaaaaaaaaaaaaaaaaaaaaaaaaaaaaabbbb").data =
      "aaaaaaaaaaaaaaaaaaaaaaaaaaaaaaaaaaaaaaaaaaaaaaabbbb".data.take 47 ++
        ['.', '.', '>'] ∧
    formatName "b.txt" = "b.txt" :=
  ⟨((display_name_truncation _).1 (by decide)).1,
   (display_name_truncation "b.txt").2 (by decide)⟩

/-- C10: the anchor of every rendered listing line uses the entry's full
(slash-suffixed for directories) name as its `href`, even when the name
exceeds 50 characters; the `..>` truncation applies only to the visible
link text between `>` and `</a>`. -/
theorem href_keeps_full_name (name0 modTime : String) (info : FileInfo) :
    (mkItem name0 modTime info).Formatted =
      "<a href=\"" ++ (mkItem name0 modTime info).Name ++ "\">" ++
        padRight 54 (formatName (mkItem name0 modTime info).Name ++ "</a>") ++
        " " ++ modTime ++ " " ++ padLeft 19 (sizeStr info) ∧
    (strLen (mkItem name0 modTime info).Name > 50 →
      formatName (mkItem name0 modTime info).Name ≠ (mkItem name0 modTime info).Name) := by
  constructor
  · rfl
  · intro h hEq
    have h50 := formatName_length_of_gt _ h
    rw [hEq] at h50
    omega

/-- Witness for C10: a directory entry whose slash-suffixed name has 51
characters keeps the full name in the `href` while the visible text is
truncated. -/
theorem href_keeps_full_name_witness :
    formatName (mkItem "aaaaaaaaaaaaaaaaaaaaaaaaaaaaaaaaaaaaaaaaaaaaaaabbb" (fmtTm tm0)
        ⟨"aaaaaaaaaaaaaaaaaaaaaaaaaaaaaaaaaaaaaaaaaaaaaaabbb", 0, tm0, true, false⟩).Name ≠
      (mkItem "aaaaaaaaaaaaaaaaaaaaaaaaaaaaaaaaaaaaaaaaaaaaaaabbb" (fmtTm tm0)
        ⟨"aaaaaaaaaaaaaaaaaaaaaaaaaaaaaaaaaaaaaaaaaaaaaaabbb", 0, tm0, true, false⟩).Name :=
  (href_keeps_full_name _ _ _).2 (by decide)

/-- C4: a request for a directory path without a trailing slash (whose
scan completes, so in particular no `index.html` is present) receives
*both* effects in the same response: `c.Redirect(301, path+"/")` and the
`c.Data(200, "text/html", listing)` body write. -/
theorem slashless_dir_redirect_and_body (root urlPath : String) (cache : Bool)
    (ct : String) (fs : Fs) (entries : List FileInfo) (items : List Item)
    (h1 : goHasSuffix urlPath "/" = false)
    (h2 : isDirectory fs (resolvedPath root urlPath) = .ok true)
    (h3 : fs.readDir (resolvedPath root urlPath) = .ok entries)
    (h4 : scanLoop (resolvedPath root urlPath) fs entries [] = .done items) :
    (handle ⟨root, cache, ct⟩ fs urlPath).redirect = some (301, urlPath ++ "/") ∧
    (handle ⟨root, cache, ct⟩ fs urlPath).data =
      some (200, "text/html",
        renderBody
          (let q := cleanPath ("/" ++ urlPath)
           if goHasSuffix q "/" then q else q ++ "/")
          (joinItems (sortItems items) "\n")) ∧
    (handle ⟨root, cache, ct⟩ fs urlPath).abortCode = none ∧
    (handle ⟨root, cache, ct⟩ fs urlPath).servedRaw = false := by
  have hd : ∀ resp : Resp,
      handleDirList (resolvedPath root urlPath) urlPath fs resp =
      (true, none,
        { resp with
          redirect := some (301, urlPath ++ "/")
          data := some (200, "text/html",
            renderBody
              (let q := cleanPath ("/" ++ urlPath)
               if goHasSuffix q "/" then q else q ++ "/")
              (joinItems (sortItems items) "\n")) }) := by
    intro resp
    unfold handleDirList redirectIfNeeded
    simp only [h3, h1, h4, Bool.not_false, if_true]
  unfold handle
  simp only [h2, hd]
  constructor
  · rfl
  constructor
  · rfl
  constructor
  · rfl
  · rfl

/-- Witness for C4: requesting `/d` against root `/w` (directory `d`
holding `b.txt`) both records the 301 redirect to `/d/` and writes the
200 listing body. -/
theorem slashless_dir_redirect_and_body_witness :
    (handle ⟨"/w", false, ""⟩ fsC4 "/d").redirect = some (301, "/d/") ∧
    (handle ⟨"/w", false, ""⟩ fsC4 "/d").data =
      some (200, "text/html",
        renderBody
          (let q := cleanPath ("/" ++ "/d")
           if goHasSuffix q "/" then q else q ++ "/")
          (joinItems (sortItems [mkItem "b.txt" (fmtTm tm0) fi_btxt]) "\n")) ∧
    (handle ⟨"/w", false, ""⟩ fsC4 "/d").abortCode = none ∧
    (handle ⟨"/w", false, ""⟩ fsC4 "/d").servedRaw = false :=
  slashless_dir_redirect_and_body "/w" "/d" false "" fsC4 [fi_btxt]
    [mkItem "b.txt" (fmtTm tm0) fi_btxt] (by decide) (by rfl) (by rfl) (by rfl)

/-- One unfolding step of `scanLoop` on a nonempty entry list. -/
theorem scanLoop_cons (path : String) (fs : Fs) (e : FileInfo)
    (rest : List FileInfo) (items : List Item) :
    scanLoop path fs (e :: rest) items =
      if e.name = "index.html" then .indexHtml
      else
        if e.isSymlink then
          match fs.readlink (joinPaths path e.name) with
          | .error _ => .scanErr
          | .ok linkPath =>
            match fs.lstat linkPath with
            | .notExist => scanLoop path fs rest items
            | .ioErr => .scanErr
            | .found itm =>
              scanLoop path fs rest (items ++ [mkItem e.name (fmtTm e.modTime) itm])
        else scanLoop path fs rest (items ++ [mkItem e.name (fmtTm e.modTime) e]) := by
  rw [scanLoop]

/-- `HandleDirList` on a successfully read directory whose scan aborts:
it returns `(false, err)` with the response unchanged except for a
possible redirect. -/
theorem handleDirList_scanErr (path urlPath : String) (fs : Fs) (resp : Resp)
    (entries : List FileInfo)
    (h3 : fs.readDir path = .ok entries)
    (h4 : scanLoop path fs entries [] = .scanErr) :
    handleDirList path urlPath fs resp =
      (false, some (), redirectIfNeeded urlPath resp) := by
  unfold handleDirList
  simp only [h3, h4]

/-- The redirect step does not touch the data field. -/
theorem redirectIfNeeded_data (urlPath : String) (r : Resp) :
    (redirectIfNeeded urlPath r).data = r.data := by
  unfold redirectIfNeeded; split <;> rfl

/-- The redirect step does not touch the abort code. -/
theorem redirectIfNeeded_abortCode (urlPath : String) (r : Resp) :
    (redirectIfNeeded urlPath r).abortCode = r.abortCode := by
  unfold redirectIfNeeded; split <;> rfl

/-- The redirect step does not touch the raw-serving flag. -/
theorem redirectIfNeeded_servedRaw (urlPath : String) (r : Resp) :
    (redirectIfNeeded urlPath r).servedRaw = r.servedRaw := by
  unfold redirectIfNeeded; split <;> rfl

/-- C1 (amended): a symlink entry is rendered with the size and
directory-ness of the `Lstat` of its `Readlink` target — one level of
resolution, not the ultimate target — while the modification time is the
link's own (it is formatted before resolution); a missing target skips
the entry silently; a `Readlink` error or a non-not-exist `Lstat` error
aborts the scan, which `Handle` turns into a 500 with no listing body. -/
theorem symlink_one_level_resolution (path : String) (fs : Fs) (e : FileInfo)
    (rest : List FileInfo) (items : List Item)
    (hname : e.name ≠ "index.html") (hsym : e.isSymlink = true) :
    (∀ t fi, fs.readlink (joinPaths path e.name) = .ok t → fs.lstat t = .found fi →
      scanLoop path fs (e :: rest) items =
        scanLoop path fs rest (items ++ [mkItem e.name (fmtTm e.modTime) fi])) ∧
    (∀ t, fs.readlink (joinPaths path e.name) = .ok t → fs.lstat t = .notExist →
      scanLoop path fs (e :: rest) items = scanLoop path fs rest items) ∧
    (∀ err, fs.readlink (joinPaths path e.name) = .error err →
      scanLoop path fs (e :: rest) items = .scanErr) ∧
    (∀ t, fs.readlink (joinPaths path e.name) = .ok t → fs.lstat t = .ioErr →
      scanLoop path fs (e :: rest) items = .scanErr) ∧
    (∀ (cfg : HandlerCfg) (urlPath : String) (entries : List FileInfo),
      isDirectory fs (resolvedPath cfg.root urlPath) = .ok true →
      fs.readDir (resolvedPath cfg.root urlPath) = .ok entries →
      scanLoop (resolvedPath cfg.root urlPath) fs entries [] = .scanErr →
      (handle cfg fs urlPath).abortCode = some 500 ∧
      (handle cfg fs urlPath).data = none ∧
      (handle cfg fs urlPath).servedRaw = false) := by
  refine ⟨?_, ?_, ?_, ?_, ?_⟩
  · intro t fi hrl hls
    rw [scanLoop_cons, if_neg hname, hsym, if_pos rfl]
    simp only [hrl, hls]
  · intro t hrl hls
    rw [scanLoop_cons, if_neg hname, hsym, if_pos rfl]
    simp only [hrl, hls]
  · intro err hrl
    rw [scanLoop_cons, if_neg hname, hsym, if_pos rfl]
    simp only [hrl]
  · intro t hrl hls
    rw [scanLoop_cons, if_neg hname, hsym, if_pos rfl]
    simp only [hrl, hls]
  · intro cfg urlPath entries hD hRD hscan
    have hdl := handleDirList_scanErr (resolvedPath cfg.root urlPath) urlPath fs
      { headers := if !cfg.cache then cacheHeaders else [] } entries hRD hscan
    simp only [handle, hD, if_pos, hdl]
    refine ⟨?_, ?_, ?_⟩ <;>
      simp only [redirectIfNeeded_data, redirectIfNeeded_servedRaw]

/-- Witness for C1 (amended): in the chain fixture, the link `a` is
rendered from the `Lstat` of target `b` together with `a`'s own
formatted modification time. -/
theorem symlink_one_level_resolution_witness :
    scanLoop "/r" fsC1 [fi_a] [] =
      scanLoop "/r" fsC1 [] ([] ++ [mkItem "a" (fmtTm fi_a.modTime) fi_b]) :=
  (symlink_one_level_resolution "/r" fsC1 fi_a [] [] (by decide) (by decide)).1
    "b" fi_b (by rfl) (by rfl)

/-- Counterexample to C1 as stated: with the chain `a → b → c` (`a`, `b`
symlinks, `c` a 10-byte regular file), the listing renders `a` from the
`Lstat` of the *immediate* target `b` (size 1, a symlink) and from `a`'s
*own* modification time `tm1`, whereas the claim mandates the ultimate
target `c`'s metadata (size 10, time `tm3`): the produced fragment
differs from the mandated one. -/
theorem symlink_metadata_counterexample :
    scanLoop "/r" fsC1 [fi_a] [] = .done [mkItem "a" (fmtTm tm1) fi_b] ∧
    fsC1.readlink "/r/a" = .ok "b" ∧ fsC1.lstat "b" = .found fi_b ∧
    fi_b.isSymlink = true ∧
    fsC1.readlink "b" = .ok "c" ∧ fsC1.lstat "c" = .found fi_c ∧
    fi_c.isSymlink = false ∧
    (mkItem "a" (fmtTm tm1) fi_b).Formatted ≠ (mkItem "a" (fmtTm tm3) fi_c).Formatted := by
  refine ⟨by rfl, by rfl, by rfl, by rfl, by rfl, by rfl, by rfl, by decide⟩


/-- Inserting into the modelled sort permutes. -/
theorem insertItem_perm (x : Item) (l : List Item) :
    (insertItem x l).Perm (x :: l) := by
  induction l with
  | nil => rfl
  | cons y ys ih =>
    unfold insertItem
    split
    · exact List.Perm.refl _
    · exact (ih.cons y).trans (List.Perm.swap x y ys)

/-- The modelled sort permutes its input. -/
theorem sortItems_perm (l : List Item) : (sortItems l).Perm l := by
  induction l with
  | nil => rfl
  | cons x xs ih => exact (insertItem_perm x (sortItems xs)).trans (ih.cons x)

/-- C2 (amended): a listing entry's stored name is the directory entry's
*own* name — with `/` appended exactly when the resolved target is a
directory, the only way resolution shows in the name — and the rendered
fragment is derived once at construction: `Items.Join` only concatenates
the precomputed `Formatted` fields, and sorting only permutes the items. -/
theorem entry_name_and_fragment_once :
    (∀ (name0 modTime : String) (info : FileInfo),
      (mkItem name0 modTime info).Name = name0 ++ (if info.isDir then "/" else "")) ∧
    (∀ (items : List Item) (sep : String),
      joinItems items sep = specFragmentsJoin (items.map Item.Formatted) sep) ∧
    (∀ items : List Item, (sortItems items).Perm items) := by
  refine ⟨?_, ?_, sortItems_perm⟩
  · intro name0 modTime info
    unfold mkItem
    cases info.isDir <;> simp
  · intro items sep
    cases items with
    | nil => rfl
    | cons x xs =>
      show xs.foldl (fun acc i => acc ++ sep ++ i.Formatted) x.Formatted =
        (xs.map Item.Formatted).foldl (fun acc g => acc ++ sep ++ g) x.Formatted
      rw [List.foldl_map]

/-- Counterexample to C2 as stated: for the symlink `ln` whose resolved
target is the regular file named `t`, the stored `Name` (also used in the
rendered anchor) is the link's own name `ln`, not the resolved target's
name. -/
theorem entry_name_counterexample :
    scanLoop "/r2" fsC2 [fi_ln] [] = .done [mkItem "ln" (fmtTm tm1) fi_t] ∧
    fsC2.readlink "/r2/ln" = .ok "t" ∧ fsC2.lstat "t" = .found fi_t ∧
    fi_t.name = "t" ∧
    (mkItem "ln" (fmtTm tm1) fi_t).Name = "ln" ∧
    (mkItem "ln" (fmtTm tm1) fi_t).Name ≠ fi_t.name := by
  refine ⟨by rfl, by rfl, by rfl, by rfl, by rfl, by decide⟩


/-- If some entry is named `index.html`, the scan never completes
normally: it stops at the index file or at an earlier resolution error. -/
theorem scanLoop_of_index_mem (path : String) (fs : Fs) :
    ∀ (entries : List FileInfo) (items : List Item),
      "index.html" ∈ entries.map FileInfo.name →
      scanLoop path fs entries items = .indexHtml ∨
      scanLoop path fs entries items = .scanErr := by
  intro entries
  induction entries with
  | nil => intro items h; simp at h
  | cons e rest ih =>
    intro items h
    rw [scanLoop_cons]
    by_cases hn : e.name = "index.html"
    · rw [if_pos hn]; left; rfl
    · rw [if_neg hn]
      have hmem : "index.html" ∈ rest.map FileInfo.name := by
        simp only [List.map_cons, List.mem_cons] at h
        rcases h with h | h
        · exact absurd h.symm hn
        · exact h
      split
      · split
        · right; rfl
        · split
          · exact ih _ hmem
          · right; rfl
          · exact ih _ hmem
      · exact ih _ hmem

/-- If every entry before an `index.html` entry resolves without error,
the scan reaches the index file and short-circuits. -/
theorem scanLoop_reaches_index (path : String) (fs : Fs) :
    ∀ (pre : List FileInfo) (eIdx : FileInfo) (post : List FileInfo)
      (items : List Item),
      eIdx.name = "index.html" →
      (∀ e ∈ pre, okResolve fs path e) →
      scanLoop path fs (pre ++ eIdx :: post) items = .indexHtml := by
  intro pre
  induction pre with
  | nil =>
    intro eIdx post items hidx _
    rw [List.nil_append, scanLoop_cons, if_pos hidx]
  | cons e pre' ih =>
    intro eIdx post items hidx hpre
    rw [List.cons_append, scanLoop_cons]
    by_cases hn : e.name = "index.html"
    · rw [if_pos hn]
    · rw [if_neg hn]
      have hrest : ∀ x ∈ pre', okResolve fs path x := by
        intro x hx; exact hpre x (List.mem_cons_of_mem _ hx)
      split
      · rename_i hsym
        obtain ⟨t, hrl, hne⟩ := hpre e (List.mem_cons_self _ _) hsym
        simp only [hrl]
        split
        · exact ih eIdx post _ hidx hrest
        · rename_i hls
          exact absurd hls hne
        · exact ih eIdx post _ hidx hrest
      · exact ih eIdx post _ hidx hrest

/-- `HandleDirList` on a successfully read directory whose scan stops at
`index.html`: it returns `(false, nil)` with the response unchanged
except for a possible redirect. -/
theorem handleDirList_index (path urlPath : String) (fs : Fs) (resp : Resp)
    (entries : List FileInfo)
    (h3 : fs.readDir path = .ok entries)
    (h4 : scanLoop path fs entries [] = .indexHtml) :
    handleDirList path urlPath fs resp =
      (false, none, redirectIfNeeded urlPath resp) := by
  unfold handleDirList
  simp only [h3, h4]

/-- Raw serving does not touch the data field. -/
theorem serveRawFile_data (cfg : HandlerCfg) (r : Resp) :
    (serveRawFile cfg r).data = r.data := by
  unfold serveRawFile; split <;> rfl

/-- Raw serving does not touch the abort code. -/
theorem serveRawFile_abortCode (cfg : HandlerCfg) (r : Resp) :
    (serveRawFile cfg r).abortCode = r.abortCode := by
  unfold serveRawFile; split <;> rfl

/-- Raw serving marks the response as served by the file server. -/
theorem serveRawFile_servedRaw (cfg : HandlerCfg) (r : Resp) :
    (serveRawFile cfg r).servedRaw = true := by
  unfold serveRawFile; split <;> rfl


/-- C5 (amended): a directory containing an entry named `index.html`
never gets a listing body; and when no entry scanned before the index
file fails symlink resolution, the request falls through to raw file
serving (the claimed mutual exclusivity).  (As the counterexample shows,
an earlier resolution error instead aborts with 500, so the fall-through
needs the error-free proviso.) -/
theorem index_html_short_circuit :
    (∀ (cfg : HandlerCfg) (fs : Fs) (urlPath : String) (entries : List FileInfo),
      fs.readDir (resolvedPath cfg.root urlPath) = .ok entries →
      "index.html" ∈ entries.map FileInfo.name →
      (handle cfg fs urlPath).data = none) ∧
    (∀ (cfg : HandlerCfg) (fs : Fs) (urlPath : String)
      (pre post : List FileInfo) (eIdx : FileInfo),
      isDirectory fs (resolvedPath cfg.root urlPath) = .ok true →
      fs.readDir (resolvedPath cfg.root urlPath) = .ok (pre ++ eIdx :: post) →
      eIdx.name = "index.html" →
      (∀ e ∈ pre, okResolve fs (resolvedPath cfg.root urlPath) e) →
      (handle cfg fs urlPath).servedRaw = true ∧
      (handle cfg fs urlPath).data = none ∧
      (handle cfg fs urlPath).abortCode = none) := by
  constructor
  · intro cfg fs urlPath entries hRD hmem
    simp only [handle]
    cases hD : isDirectory fs (resolvedPath cfg.root urlPath) with
    | error e => rfl
    | ok isDir =>
      cases isDir with
      | false =>
        simp only [Bool.false_eq_true, if_false, serveRawFile_data]
      | true =>
        simp only [if_true]
        rcases scanLoop_of_index_mem (resolvedPath cfg.root urlPath) fs entries [] hmem
          with hscan | hscan
        · rw [handleDirList_index _ urlPath fs _ entries hRD hscan]
          simp only [serveRawFile_data, redirectIfNeeded_data]
        · rw [handleDirList_scanErr _ urlPath fs _ entries hRD hscan]
          simp only [redirectIfNeeded_data]
  · intro cfg fs urlPath pre post eIdx hD hRD hidx hpre
    have hscan := scanLoop_reaches_index (resolvedPath cfg.root urlPath) fs pre eIdx post []
      hidx hpre
    have hdl := handleDirList_index (resolvedPath cfg.root urlPath) urlPath fs
      { headers := if !cfg.cache then cacheHeaders else [] } (pre ++ eIdx :: post) hRD hscan
    simp only [handle, hD, if_true, hdl]
    refine ⟨?_, ?_, ?_⟩
    · simp only [serveRawFile_servedRaw]
    · simp only [serveRawFile_data, redirectIfNeeded_data]
    · simp only [serveRawFile_abortCode, redirectIfNeeded_abortCode]

/-- Witness for C5 (amended): the directory `/r5` holding a well-behaved
`b.txt` and `index.html` yields no listing body and falls through to raw
serving. -/
theorem index_html_short_circuit_witness :
    (handle ⟨"/r5", false, ""⟩ fsC5b "/").servedRaw = true ∧
    (handle ⟨"/r5", false, ""⟩ fsC5b "/").data = none ∧
    (handle ⟨"/r5", false, ""⟩ fsC5b "/").abortCode = none :=
  index_html_short_circuit.2 ⟨"/r5", false, ""⟩ fsC5b "/" [fi_btxt] [] fi_idx
    (by rfl) (by rfl) (by rfl)
    (by
      intro e he hsym
      have he' : e = fi_btxt := by simpa using he
      rw [he'] at hsym
      exact absurd hsym (by decide))

/-- Counterexample to C5 as stated: the directory `/r5` contains
`index.html`, yet the request does *not* fall through to raw file
serving — a broken-readlink symlink `aaa` sorted before the index file
aborts the request with a 500 (though, as always, no listing body is
produced). -/
theorem index_html_counterexample :
    fsC5.readDir "/r5" = .ok [fi_bad, fi_idx] ∧ fi_idx.name = "index.html" ∧
    (handle ⟨"/r5", false, ""⟩ fsC5 "/").servedRaw = false ∧
    (handle ⟨"/r5", false, ""⟩ fsC5 "/").abortCode = some 500 ∧
    (handle ⟨"/r5", false, ""⟩ fsC5 "/").data = none := by
  refine ⟨by rfl, by rfl, by decide, by decide, by decide⟩





/-- `Items.Less` is the lexicographic comparison on (rank, name). -/
theorem goLess_iff_rank (a b : Item) :
    goLess a b = true ↔
      (itemRank a < itemRank b ∨ (itemRank a = itemRank b ∧ a.Name < b.Name)) := by
  unfold goLess itemRank itemHidden
  cases ha : a.IsDir <;> cases hb : b.IsDir <;>
    cases hha : (strTake a.Name 1 == ".") <;> cases hhb : (strTake b.Name 1 == ".") <;>
    simp [ha, hb, hha, hhb]

/-- The spec's ordering relation is the same lexicographic comparison. -/
theorem claimOrder_iff_rank (a b : Item) :
    claimOrder a b ↔
      (itemRank a < itemRank b ∨ (itemRank a = itemRank b ∧ a.Name < b.Name)) := by
  unfold claimOrder itemRank
  cases ha : a.IsDir <;> cases hb : b.IsDir <;>
    cases hha : itemHidden a <;> cases hhb : itemHidden b <;>
    simp [ha, hb, hha, hhb]

/-- Transitivity of `Items.Less`. -/
theorem goLess_trans {a b c : Item} (hab : goLess a b = true)
    (hbc : goLess b c = true) : goLess a c = true := by
  rw [goLess_iff_rank] at *
  rcases hab with h1 | ⟨h1, h1'⟩ <;> rcases hbc with h2 | ⟨h2, h2'⟩
  · exact Or.inl (h1.trans h2)
  · exact Or.inl (h2 ▸ h1)
  · exact Or.inl (h1 ▸ h2)
  · exact Or.inr ⟨h1.trans h2, h1'.trans h2'⟩

/-- Asymmetry of `Items.Less`. -/
theorem goLess_asymm {a b : Item} (hab : goLess a b = true) :
    goLess b a = false := by
  cases hba : goLess b a
  · rfl
  · exfalso
    rw [goLess_iff_rank] at hab hba
    rcases hab with h1 | ⟨h1, h1'⟩ <;> rcases hba with h2 | ⟨h2, h2'⟩
    · omega
    · omega
    · omega
    · exact absurd (h1'.trans h2') (lt_irrefl _)

/-- Totality of `Items.Less` on items with distinct names. -/
theorem goLess_total_of_ne {a b : Item} (h : a.Name ≠ b.Name) :
    goLess a b = true ∨ goLess b a = true := by
  rcases Nat.lt_trichotomy (itemRank a) (itemRank b) with hr | hr | hr
  · exact Or.inl ((goLess_iff_rank a b).mpr (Or.inl hr))
  · rcases h.lt_or_lt with hn | hn
    · exact Or.inl ((goLess_iff_rank a b).mpr (Or.inr ⟨hr, hn⟩))
    · exact Or.inr ((goLess_iff_rank b a).mpr (Or.inr ⟨hr.symm, hn⟩))
  · exact Or.inr ((goLess_iff_rank b a).mpr (Or.inl hr))

/-- Membership in an insertion. -/
theorem mem_insertItem {z x : Item} {l : List Item} :
    z ∈ insertItem x l ↔ z = x ∨ z ∈ l := by
  induction l with
  | nil => simp [insertItem]
  | cons y ys ih =>
    unfold insertItem
    split
    · simp
    · simp only [List.mem_cons, ih]
      tauto

/-- Inserting into a list sorted by "not greater" keeps it sorted. -/
theorem pairwise_insertItem (x : Item) (l : List Item)
    (hl : l.Pairwise (fun a b => goLess b a = false)) :
    (insertItem x l).Pairwise (fun a b => goLess b a = false) := by
  induction l with
  | nil => simp [insertItem]
  | cons y ys ih =>
    rcases List.pairwise_cons.mp hl with ⟨hy, hys⟩
    unfold insertItem
    split
    · rename_i hxy
      refine List.pairwise_cons.mpr ⟨?_, hl⟩
      intro z hz
      rcases List.mem_cons.mp hz with rfl | hz'
      · exact goLess_asymm hxy
      · cases hzx : goLess z x
        · rfl
        · exfalso
          have := goLess_trans hzx hxy
          rw [hy z hz'] at this
          exact Bool.false_ne_true this
    · rename_i hxy
      refine List.pairwise_cons.mpr ⟨?_, ih hys⟩
      intro z hz
      rcases mem_insertItem.mp hz with rfl | hz'
      · exact Bool.of_not_eq_true hxy
      · exact hy z hz'

/-- The modelled sort produces a list sorted by "not greater". -/
theorem pairwise_sortItems (l : List Item) :
    (sortItems l).Pairwise (fun a b => goLess b a = false) := by
  induction l with
  | nil => exact List.Pairwise.nil
  | cons x xs ih => exact pairwise_insertItem x (sortItems xs) ih

/-- C3: `Items.Less` is exactly the spec's successive tie-break order
(directories before files, hidden before non-hidden, then case-sensitive
name), a strict total order on entries with distinct names; sorting
produces a permutation arranged in that order; and the root containing
`b.txt`, `.hidden` and `sub/` lists as `["sub/", ".hidden", "b.txt"]`. -/
theorem listing_sort_total_order :
    (∀ a b : Item, goLess a b = true ↔ claimOrder a b) ∧
    (∀ a : Item, ¬ claimOrder a a) ∧
    (∀ a b c : Item, claimOrder a b → claimOrder b c → claimOrder a c) ∧
    (∀ a b : Item, a.Name ≠ b.Name → claimOrder a b ∨ claimOrder b a) ∧
    (∀ items : List Item, distinctNames items →
      (sortItems items).Perm items ∧ (sortItems items).Pairwise claimOrder) ∧
    ((match scanLoop "/w" fsEx [fi_hidden, fi_btxt, fi_sub] [] with
      | .done l => (sortItems l).map Item.Name
      | _ => []) = ["sub/", ".hidden", "b.txt"]) := by
  have hiff : ∀ a b : Item, goLess a b = true ↔ claimOrder a b := by
    intro a b
    rw [goLess_iff_rank, claimOrder_iff_rank]
  refine ⟨hiff, ?_, ?_, ?_, ?_, by decide⟩
  · intro a h
    rw [claimOrder_iff_rank] at h
    rcases h with h | ⟨_, h⟩
    · omega
    · exact lt_irrefl _ h
  · intro a b c hab hbc
    exact (hiff a c).mp (goLess_trans ((hiff a b).mpr hab) ((hiff b c).mpr hbc))
  · intro a b h
    rcases goLess_total_of_ne h with h' | h'
    · exact Or.inl ((hiff a b).mp h')
    · exact Or.inr ((hiff b a).mp h')
  · intro items hdist
    refine ⟨sortItems_perm items, ?_⟩
    have hne : (sortItems items).Pairwise (fun a b => a.Name ≠ b.Name) :=
      ((sortItems_perm items).pairwise_iff (by intro a b h; exact h.symm)).mpr hdist
    have hr := pairwise_sortItems items
    refine (hr.and hne).imp ?_
    intro a b ⟨h1, h2⟩
    rcases goLess_total_of_ne h2 with h' | h'
    · exact (hiff a b).mp h'
    · rw [h1] at h'
      exact absurd h' Bool.false_ne_true

/-- Witness for C3: a concrete distinct-name item list is sorted into the
claimed order (a permutation, pairwise in `claimOrder`). -/
theorem listing_sort_total_order_witness :
    (sortItems [⟨"b.txt", false, "x"⟩, ⟨".hidden", false, "y"⟩, ⟨"sub/", true, "z"⟩]).Perm
      [⟨"b.txt", false, "x"⟩, ⟨".hidden", false, "y"⟩, ⟨"sub/", true, "z"⟩] ∧
    (sortItems [⟨"b.txt", false, "x"⟩, ⟨".hidden", false, "y"⟩,
      ⟨"sub/", true, "z"⟩]).Pairwise claimOrder :=
  listing_sort_total_order.2.2.2.2.1 _
    (by
      unfold distinctNames
      refine List.Pairwise.cons ?_ (List.Pairwise.cons ?_ (List.pairwise_singleton _ _))
      · intro b hb
        rcases List.mem_cons.mp hb with rfl | hb'
        · decide
        · rcases List.mem_singleton.mp hb' with rfl
          decide
      · intro b hb
        rcases List.mem_singleton.mp hb with rfl
        decide)

/-- `splitSlashCh` never returns the empty list. -/
theorem splitSlashCh_ne_nil : ∀ cs : List Char, splitSlashCh cs ≠ []
  | [] => by simp [splitSlashCh]
  | c :: rest => by
    unfold splitSlashCh
    split
    · simp
    · cases h : splitSlashCh rest with
      | nil => exact absurd h (splitSlashCh_ne_nil rest)
      | cons t ts => simp

/-- Splitting a path starting with the separator yields a leading empty
component. -/
theorem splitSlashCh_cons_slash (cs : List Char) :
    splitSlashCh ('/' :: cs) = [] :: splitSlashCh cs := rfl

/-- Splitting after a non-separator head extends the first component. -/
theorem splitSlashCh_cons_of_ne (c : Char) (cs : List Char) (hc : ¬ c = '/') :
    splitSlashCh (c :: cs) =
      match splitSlashCh cs with
      | [] => [[c]]
      | t :: ts => (c :: t) :: ts := by
  conv_lhs => unfold splitSlashCh
  rw [if_neg hc]

/-- Splitting distributes over a `/` separator. -/
theorem splitSlashCh_append (xs ys : List Char) :
    splitSlashCh (xs ++ '/' :: ys) = splitSlashCh xs ++ splitSlashCh ys := by
  induction xs with
  | nil => rfl
  | cons c xs ih =>
    by_cases hc : c = '/'
    · subst hc
      show splitSlashCh ('/' :: (xs ++ '/' :: ys)) = splitSlashCh ('/' :: xs) ++ _
      rw [splitSlashCh_cons_slash, splitSlashCh_cons_slash, ih, List.cons_append]
    · show splitSlashCh (c :: (xs ++ '/' :: ys)) = splitSlashCh (c :: xs) ++ _
      rw [splitSlashCh_cons_of_ne c _ hc, splitSlashCh_cons_of_ne c _ hc, ih]
      cases h : splitSlashCh xs with
      | nil => exact absurd h (splitSlashCh_ne_nil xs)
      | cons t ts => rfl

/-- Components produced by splitting contain no separator. -/
theorem splitSlashCh_no_slash : ∀ (cs : List Char), ∀ l ∈ splitSlashCh cs, '/' ∉ l
  | [] => by simp [splitSlashCh]
  | c :: rest => by
    unfold splitSlashCh
    split
    · rename_i hc
      intro l hl
      rcases List.mem_cons.mp hl with rfl | hl'
      · simp
      · exact splitSlashCh_no_slash rest l hl'
    · rename_i hc
      cases h : splitSlashCh rest with
      | nil => exact absurd h (splitSlashCh_ne_nil rest)
      | cons t ts =>
        intro l hl
        rcases List.mem_cons.mp hl with rfl | hl'
        · intro hmem
          rcases List.mem_cons.mp hmem with rfl | hmem'
          · exact hc rfl
          · exact splitSlashCh_no_slash rest t (h ▸ List.mem_cons_self t ts) hmem'
        · exact splitSlashCh_no_slash rest l (h ▸ List.mem_cons_of_mem t hl')

/-- A separator-free character list splits into itself. -/
theorem splitSlashCh_of_no_slash : ∀ (cs : List Char), '/' ∉ cs → splitSlashCh cs = [cs]
  | [] => fun _ => rfl
  | c :: rest => by
    intro h
    have hc : ¬ c = '/' := fun e => h (e ▸ List.mem_cons_self c rest)
    unfold splitSlashCh
    rw [if_neg hc, splitSlashCh_of_no_slash rest (fun hm => h (List.mem_cons_of_mem c hm))]

/-- Splitting a string distributes over `++ "/" ++`. -/
theorem splitSlash_append (a b : String) :
    splitSlash (a ++ "/" ++ b) = splitSlash a ++ splitSlash b := by
  unfold splitSlash
  have hdat : (a ++ "/" ++ b).data = a.data ++ '/' :: b.data := by
    rw [String.data_append, String.data_append, List.append_assoc]
    rfl
  rw [hdat, splitSlashCh_append, List.map_append]

/-- Splitting a rooted string yields a leading empty component. -/
theorem splitSlash_slash_cons (b : String) :
    splitSlash ("/" ++ b) = "" :: splitSlash b := by
  unfold splitSlash
  have hdat : ("/" ++ b).data = '/' :: b.data := by
    rw [String.data_append]
    rfl
  rw [hdat, splitSlashCh_cons_slash]
  rfl

/-- Components of a string split contain no separator. -/
theorem splitSlash_no_slash (s : String) : ∀ x ∈ splitSlash s, '/' ∉ x.data := by
  intro x hx
  unfold splitSlash at hx
  rcases List.mem_map.mp hx with ⟨l, hl, rfl⟩
  exact splitSlashCh_no_slash s.data l hl

/-- Splitting inverts joining on separator-free components. -/
theorem splitSlash_intercalate : ∀ l : List String, (∀ x ∈ l, '/' ∉ x.data) →
    splitSlash (intercalateSlash l) = if l = [] then [""] else l
  | [] => fun _ => rfl
  | [x] => by
    intro h
    have hx : '/' ∉ x.data := h x (List.mem_singleton_self x)
    show splitSlash x = [x]
    unfold splitSlash
    rw [splitSlashCh_of_no_slash x.data hx]
    rfl
  | x :: y :: rest => by
    intro h
    have hx : '/' ∉ x.data := h x (List.mem_cons_self _ _)
    show splitSlash (x ++ "/" ++ intercalateSlash (y :: rest)) = x :: y :: rest
    rw [splitSlash_append,
      splitSlash_intercalate (y :: rest) (fun z hz => h z (List.mem_cons_of_mem x hz))]
    simp only [reduceCtorEq, if_false]
    unfold splitSlash
    rw [splitSlashCh_of_no_slash x.data hx]
    rfl

/-- Every component surviving `cleanAccum` under a rooted path is a real
path step: nonempty and neither `.` nor `..`. -/
theorem cleanAccum_good : ∀ (parts acc : List String),
    (∀ x ∈ acc, x ≠ "" ∧ x ≠ "." ∧ x ≠ "..") →
    ∀ x ∈ cleanAccum true acc parts, x ≠ "" ∧ x ≠ "." ∧ x ≠ ".."
  | [], acc => fun hacc => hacc
  | p :: rest, acc => by
    intro hacc
    by_cases hp : p = "" ∨ p = "."
    · unfold cleanAccum
      rw [if_pos hp]
      exact cleanAccum_good rest acc hacc
    · by_cases hpp : p = ".."
      · cases acc with
        | nil =>
          simp only [cleanAccum, if_neg hp, if_pos hpp, if_pos rfl]
          exact cleanAccum_good rest [] (by simp)
        | cons q acc' =>
          have hq := hacc q (List.mem_cons_self _ _)
          simp only [cleanAccum, if_neg hp, if_pos hpp, if_neg hq.2.2]
          exact cleanAccum_good rest acc'
            (fun x hx => hacc x (List.mem_cons_of_mem q hx))
      · unfold cleanAccum
        rw [if_neg hp, if_neg hpp]
        refine cleanAccum_good rest (p :: acc) ?_
        intro x hx
        rcases List.mem_cons.mp hx with rfl | hx'
        · push_neg at hp
          exact ⟨hp.1, hp.2, hpp⟩
        · exact hacc x hx'

/-- Every component surviving `cleanAccum` comes from the accumulator or
the input. -/
theorem cleanAccum_mem_sub (abs : Bool) : ∀ (parts acc : List String),
    ∀ x ∈ cleanAccum abs acc parts, x ∈ acc ∨ x ∈ parts
  | [], acc => fun x hx => Or.inl hx
  | p :: rest, acc => by
    intro x hx
    by_cases hp : p = "" ∨ p = "."
    · unfold cleanAccum at hx
      rw [if_pos hp] at hx
      rcases cleanAccum_mem_sub abs rest acc x hx with h | h
      · exact Or.inl h
      · exact Or.inr (List.mem_cons_of_mem p h)
    · by_cases hpp : p = ".."
      · cases acc with
        | nil =>
          cases abs with
          | true =>
            simp only [cleanAccum, if_neg hp, if_pos hpp, if_pos rfl] at hx
            rcases cleanAccum_mem_sub true rest [] x hx with h | h
            · exact absurd h (List.not_mem_nil x)
            · exact Or.inr (List.mem_cons_of_mem p h)
          | false =>
            simp only [cleanAccum, if_neg hp, if_pos hpp, Bool.false_eq_true,
              if_false] at hx
            rcases cleanAccum_mem_sub false rest [p] x hx with h | h
            · exact Or.inr (List.mem_cons.mpr (Or.inl (List.mem_singleton.mp h)))
            · exact Or.inr (List.mem_cons_of_mem p h)
        | cons q acc' =>
          by_cases hq : q = ".."
          · simp only [cleanAccum, if_neg hp, if_pos hpp, if_pos hq] at hx
            rcases cleanAccum_mem_sub abs rest (p :: q :: acc') x hx with h | h
            · rcases List.mem_cons.mp h with rfl | h'
              · exact Or.inr (List.mem_cons_self _ _)
              · exact Or.inl h'
            · exact Or.inr (List.mem_cons_of_mem p h)
          · simp only [cleanAccum, if_neg hp, if_pos hpp, if_neg hq] at hx
            rcases cleanAccum_mem_sub abs rest acc' x hx with h | h
            · exact Or.inl (List.mem_cons_of_mem q h)
            · exact Or.inr (List.mem_cons_of_mem p h)
      · unfold cleanAccum at hx
        rw [if_neg hp, if_neg hpp] at hx
        rcases cleanAccum_mem_sub abs rest (p :: acc) x hx with h | h
        · rcases List.mem_cons.mp h with rfl | h'
          · exact Or.inr (List.mem_cons_self _ _)
          · exact Or.inl h'
        · exact Or.inr (List.mem_cons_of_mem p h)

/-- Without `..` components, cleaning is just dropping empty and `.`
components. -/
theorem cleanAccum_no_dotdot (abs : Bool) : ∀ (parts acc : List String),
    (∀ p ∈ parts, p ≠ "..") →
    cleanAccum abs acc parts =
      (parts.filter (fun p => !(p == "" || p == "."))).reverse ++ acc
  | [], acc => fun _ => rfl
  | p :: rest, acc => by
    intro h
    unfold cleanAccum
    by_cases hp : p = "" ∨ p = "."
    · rw [if_pos hp,
        cleanAccum_no_dotdot abs rest acc (fun x hx => h x (List.mem_cons_of_mem p hx))]
      have hfilter : (p :: rest).filter (fun p => !(p == "" || p == ".")) =
          rest.filter (fun p => !(p == "" || p == ".")) := by
        rw [List.filter_cons_of_neg]
        rcases hp with rfl | rfl <;> simp
      rw [hfilter]
    · rw [if_neg hp, if_neg (h p (List.mem_cons_self _ _)),
        cleanAccum_no_dotdot abs rest (p :: acc)
          (fun x hx => h x (List.mem_cons_of_mem p hx))]
      have hfilter : (p :: rest).filter (fun p => !(p == "" || p == ".")) =
          p :: rest.filter (fun p => !(p == "" || p == ".")) := by
        rw [List.filter_cons_of_pos]
        push_neg at hp
        simp [hp.1, hp.2]
      rw [hfilter, List.reverse_cons, List.append_assoc]
      rfl

/-- A string with empty character data is the empty string. -/
theorem eq_empty_of_data_nil (s : String) (h : s.data = []) : s = "" := by
  cases s with
  | mk d => cases h; rfl

/-- A rooted concatenation is nonempty. -/
theorem slash_append_ne (s : String) : ("/" ++ s) ≠ "" := by
  intro h
  have hd := congrArg String.data h
  rw [String.data_append] at hd
  simp at hd

/-- A concatenation with nonempty left part is nonempty. -/
theorem append_ne_of_left (a b : String) (h : a ≠ "") : (a ++ b) ≠ "" := by
  intro he
  have hd := congrArg String.data he
  rw [String.data_append] at hd
  rcases List.append_eq_nil.mp hd with ⟨ha, _⟩
  exact h (eq_empty_of_data_nil a ha)

/-- A string whose data starts with `/` is rooted. -/
theorem isAbsPath_of_data (s : String) (rest : List Char)
    (h : s.data = '/' :: rest) : isAbsPath s = true := by
  unfold isAbsPath
  rw [h]
  simp

/-- The character data of a rooted concatenation. -/
theorem data_slash_append (s : String) : ("/" ++ s).data = '/' :: s.data := by
  rw [String.data_append]
  rfl

/-- Components that are real path steps survive the keep filter. -/
theorem filter_keep_eq_self (l : List String)
    (h : ∀ x ∈ l, x ≠ "" ∧ x ≠ ".") :
    l.filter (fun p => !(p == "" || p == ".")) = l := by
  refine List.filter_eq_self.mpr ?_
  intro x hx
  have hx' := h x hx
  simp [hx'.1, hx'.2]

/-- `filepath.Clean` of a rooted path: the result is `/` followed by
clean components (no empty, `.`, or `..` component, none containing a
separator). -/
theorem cleanPath_rooted (p : String) :
    ∃ cs, (∀ c ∈ cs, c ≠ "" ∧ c ≠ "." ∧ c ≠ "..") ∧ (∀ c ∈ cs, '/' ∉ c.data) ∧
      cleanPath ("/" ++ p) = "/" ++ intercalateSlash cs := by
  refine ⟨cleanParts true (splitSlash ("/" ++ p)), ?_, ?_, ?_⟩
  · intro c hc
    unfold cleanParts at hc
    rw [List.mem_reverse] at hc
    exact cleanAccum_good _ [] (by simp) c hc
  · intro c hc
    unfold cleanParts at hc
    rw [List.mem_reverse] at hc
    rcases cleanAccum_mem_sub true _ [] c hc with h | h
    · exact absurd h (List.not_mem_nil c)
    · exact splitSlash_no_slash _ c h
  · have hne : ("/" ++ p) ≠ "" := slash_append_ne p
    have habs : isAbsPath ("/" ++ p) = true :=
      isAbsPath_of_data _ p.data (data_slash_append p)
    unfold cleanPath
    rw [if_neg hne]
    simp only [habs, if_true]

/-- `filepath.Clean` of the concatenation of two rooted clean paths drops
the redundant separators and concatenates the components. -/
theorem cleanPath_two_rooted (rcs cs : List String)
    (hg1 : ∀ c ∈ rcs, c ≠ "" ∧ c ≠ "." ∧ c ≠ "..")
    (hs1 : ∀ c ∈ rcs, '/' ∉ c.data)
    (hg2 : ∀ c ∈ cs, c ≠ "" ∧ c ≠ "." ∧ c ≠ "..")
    (hs2 : ∀ c ∈ cs, '/' ∉ c.data) :
    cleanPath (("/" ++ intercalateSlash rcs) ++ "/" ++ ("/" ++ intercalateSlash cs)) =
      "/" ++ intercalateSlash (rcs ++ cs) := by
  have hdat : (("/" ++ intercalateSlash rcs) ++ "/" ++ ("/" ++ intercalateSlash cs)).data
      = '/' :: ((intercalateSlash rcs).data ++ '/' :: ('/' :: (intercalateSlash cs).data)) := by
    rw [String.data_append, String.data_append, data_slash_append, data_slash_append,
      List.append_assoc]
    rfl
  have hne : (("/" ++ intercalateSlash rcs) ++ "/" ++ ("/" ++ intercalateSlash cs)) ≠ "" :=
    append_ne_of_left _ _ (append_ne_of_left _ _ (slash_append_ne _))
  have habs : isAbsPath (("/" ++ intercalateSlash rcs) ++ "/" ++ ("/" ++ intercalateSlash cs))
      = true := isAbsPath_of_data _ _ hdat
  have hsplit : splitSlash (("/" ++ intercalateSlash rcs) ++ "/" ++ ("/" ++ intercalateSlash cs))
      = ("" :: (if rcs = [] then [""] else rcs)) ++ ("" :: (if cs = [] then [""] else cs)) := by
    rw [splitSlash_append, splitSlash_slash_cons, splitSlash_slash_cons,
      splitSlash_intercalate rcs hs1, splitSlash_intercalate cs hs2]
  unfold cleanPath
  rw [if_neg hne]
  simp only [habs, if_true]
  have hparts : cleanParts true
      (splitSlash (("/" ++ intercalateSlash rcs) ++ "/" ++ ("/" ++ intercalateSlash cs)))
      = rcs ++ cs := by
    unfold cleanParts
    rw [hsplit]
    have hnodd : ∀ x ∈ ("" :: (if rcs = [] then [""] else rcs)) ++
        ("" :: (if cs = [] then [""] else cs)), x ≠ ".." := by
      intro x hx
      rcases List.mem_append.mp hx with hx' | hx' <;>
        rcases List.mem_cons.mp hx' with rfl | hx'' <;> try simp
      · split at hx''
        · rcases List.mem_singleton.mp hx'' with rfl; simp
        · exact (hg1 x hx'').2.2
      · split at hx''
        · rcases List.mem_singleton.mp hx'' with rfl; simp
        · exact (hg2 x hx'').2.2
    rw [cleanAccum_no_dotdot true _ [] hnodd, List.append_nil, List.reverse_reverse]
    have hfA : (if rcs = [] then [""] else rcs).filter (fun p => !(p == "" || p == "."))
        = rcs := by
      split
      · rename_i hr; rw [hr]; rfl
      · exact filter_keep_eq_self rcs (fun x hx => ⟨(hg1 x hx).1, (hg1 x hx).2.1⟩)
    have hfB : (if cs = [] then [""] else cs).filter (fun p => !(p == "" || p == "."))
        = cs := by
      split
      · rename_i hc; rw [hc]; rfl
      · exact filter_keep_eq_self cs (fun x hx => ⟨(hg2 x hx).1, (hg2 x hx).2.1⟩)
    rw [List.filter_append, List.filter_cons_of_neg, List.filter_cons_of_neg, hfA, hfB]
    · simp
    · simp
  rw [hparts]

/-- C6: the resolved filesystem path of `Handle` — the request path
cleaned of `..`/`.` segments before being joined under the root — always
stays inside the root: for a canonical absolute root `/rcs₁/…/rcsₙ`, the
resolved path is the root's components followed by clean, traversal-free
components, for *every* request path. -/
theorem resolved_path_stays_in_root (root p : String) (rcs : List String)
    (hroot : root = "/" ++ intercalateSlash rcs)
    (hgood : ∀ c ∈ rcs, c ≠ "" ∧ c ≠ "." ∧ c ≠ "..")
    (hsf : ∀ c ∈ rcs, '/' ∉ c.data) :
    ∃ cs, (∀ c ∈ cs, c ≠ "" ∧ c ≠ "." ∧ c ≠ "..") ∧
      resolvedPath root p = "/" ++ intercalateSlash (rcs ++ cs) := by
  subst hroot
  obtain ⟨cs, hcg, hcsf, hq⟩ := cleanPath_rooted p
  refine ⟨cs, hcg, ?_⟩
  unfold resolvedPath joinPaths
  rw [hq, if_pos (slash_append_ne (intercalateSlash rcs))]
  exact cleanPath_two_rooted rcs cs hgood hsf hcg hcsf

/-- Witness for C6: against root `/srv`, the traversal request
`../../etc/passwd` resolves inside the root. -/
theorem resolved_path_stays_in_root_witness :
    ∃ cs, (∀ c ∈ cs, c ≠ "" ∧ c ≠ "." ∧ c ≠ "..") ∧
      resolvedPath "/srv" "../../etc/passwd" = "/" ++ intercalateSlash (["srv"] ++ cs) :=
  resolved_path_stays_in_root "/srv" "../../etc/passwd" ["srv"] (by rfl)
    (by intro c hc; rcases List.mem_singleton.mp hc with rfl; refine ⟨by decide, by decide, by decide⟩)
    (by intro c hc; rcases List.mem_singleton.mp hc with rfl; decide)
